import Mathlib

/-!
# Verification of the yowl daemon core

A shallow embedding of the yowl daemon's core subsystems, translated from
`src/daemon/src/{diff,state,ipc,whisper,audio}.rs`, together with theorems
settling the specification claims.

Strings are embedded as `List Char`: every tracker operation in the source
iterates over `chars()` (Unicode scalars), and Rust's byte-oriented
`str::find` always reports its first match at a scalar boundary (UTF-8 is
self-synchronizing: the lead byte of the needle can never match a
continuation byte), so the first byte-level occurrence corresponds to the
first scalar-level occurrence and `provisional[..byte_pos].chars().count()`
is exactly the scalar index of that occurrence.
-/

namespace Yowl

/-- First scalar index at which `key` occurs as a contiguous run inside
`hay`, embedding Rust's `str::find` (which returns the first occurrence;
`find("")` is `Some(0)`). -/
def findSub (hay key : List Char) : Option Nat :=
  match hay with
  | [] => if key = [] then some 0 else none
  | _ :: t => if key.isPrefixOf hay then some 0 else (findSub t key).map (· + 1)

/-- Length of the longest common scalar prefix, embedding
`provisional.chars().zip(new.chars()).take_while(|(a,b)| a == b).count()`
from `diff.rs` (also inlined in `state.rs::poll`). -/
def commonPrefixLen : List Char → List Char → Nat
  | a :: as_, b :: bs_ => if a = b then commonPrefixLen as_ bs_ + 1 else 0
  | _, _ => 0

/-- Embedding of `DiffResult` from `diff.rs`: backspace `backspaces` trailing scalars,
then append `new_text`. -/
structure DiffResult where
  backspaces : Nat
  new_text : List Char
deriving DecidableEq

/-- Embedding of `TextTracker` from `diff.rs`: `committed` is text whose audio has aged
out of the rolling window, `provisional` is text that may still be revised. -/
structure TextTracker where
  committed : List Char
  provisional : List Char
deriving DecidableEq

/-- The key-search loop of `TextTracker::find_aging_point` in `diff.rs`:
`for key_len in (15..=new_chars.len().min(40)).rev()`, taking the prefix of
`new` of length `key_len` as search key and returning the scalar index of
its first occurrence in `prov` when that index is positive.  `k` is the
current (largest remaining) key length. -/
def tryKeys (prov new : List Char) : Nat → Nat
  | 0 => 0
  | n + 1 =>
    if n + 1 < 15 then 0
    else
      match findSub prov (new.take (n + 1)) with
      | some p => if p > 0 then p else tryKeys prov new n
      | none => tryKeys prov new n

/-- Embedding of `TextTracker::find_aging_point` from `diff.rs` (lines 110-149): empty
check, mutual-prefix check, minimum length 15, then the descending key
search with maximum key length 40. -/
def findAgingPoint (prov new : List Char) : Nat :=
  if prov = [] ∨ new = [] then 0
  else if prov.isPrefixOf new || new.isPrefixOf prov then 0
  else if new.length < 15 then 0
  else tryKeys prov new (min new.length 40)

/-- Embedding of `TextTracker::update` from `diff.rs` (lines 46-84).  Rust mutates the
tracker and returns `Option<DiffResult>`; the embedding returns the new
tracker state paired with the result. -/
def TextTracker.update (t : TextTracker) (new_transcript : List Char) :
    TextTracker × Option DiffResult :=
  if new_transcript = [] ∧ t.provisional = [] then (t, none)
  else
    let aging_point := findAgingPoint t.provisional new_transcript
    let t1 : TextTracker :=
      if aging_point > 0 then
        ⟨t.committed ++ t.provisional.take aging_point, t.provisional.drop aging_point⟩
      else t
    let common_len := commonPrefixLen t1.provisional new_transcript
    let backspaces := t1.provisional.length - common_len
    let new_text := new_transcript.drop common_len
    let t2 : TextTracker := ⟨t1.committed, new_transcript⟩
    if backspaces > 0 ∨ new_text ≠ [] then
      (t2, some ⟨backspaces, new_text⟩)
    else (t2, none)

/-- Embedding of `TextTracker::full_text` from `diff.rs`: `committed ++ provisional`. -/
def TextTracker.full_text (t : TextTracker) : List Char :=
  t.committed ++ t.provisional

/-- Run a sequence of `update` calls, keeping only the tracker state. -/
def applyUpdates (t : TextTracker) (ss : List (List Char)) : TextTracker :=
  ss.foldl (fun t s => (t.update s).1) t

/-- The client-side effect of a diff: delete `bs` trailing scalars from the
visible text, then append `app`. -/
def applyDiff (view : List Char) (bs : Nat) (app : List Char) : List Char :=
  view.take (view.length - bs) ++ app

/-- The aging rule exactly as the specification words it (rules (c)/(d) of
section 4.5): if `new` has fewer than 15 scalars the aging point is 0,
otherwise keys `new[..k]` are tried for `k` from `min(40, |new|)` down to
15 and the first key whose first occurrence in `prov` is at a positive
scalar offset `p` yields `p`.  Stated to be compared with `findAgingPoint`,
which additionally guards on empty strings and mutual prefixes. -/
def agingSpec (prov new : List Char) : Nat :=
  if new.length < 15 then 0 else tryKeys prov new (min new.length 40)

/-- The key-search loop of `DaemonState::find_aging_point` in `state.rs`
(lines 176-186): `for key_len in (5..=max_search_len).rev()` with
`max_search_len = new.chars().count().min(30)`, returning the scalar index
of the first occurrence of the key — with no positivity check — and `none`
when every key misses. -/
def tryKeysState (prov new : List Char) : Nat → Option Nat
  | 0 => none
  | n + 1 =>
    if n + 1 < 5 then none
    else
      match findSub prov (new.take (n + 1)) with
      | some p => some p
      | none => tryKeysState prov new n

/-- Embedding of `DaemonState::find_aging_point` from `state.rs` (lines 166-190): when no
key of length 5..=min(30, |new|) occurs in `provisional`, it commits all of
`provisional` (returns its full length) instead of treating the change as a
revision. -/
def findAgingPointState (prov new : List Char) : Nat :=
  if prov = [] ∨ new = [] then 0
  else if prov.isPrefixOf new || new.isPrefixOf prov then 0
  else
    match tryKeysState prov new (min new.length 30) with
    | some p => p
    | none => prov.length

/-- The committed/provisional update performed inline by `DaemonState::poll`
(`state.rs` lines 132-161) while recording with transcript `new`: on an
empty transcript the state is untouched and `(0, "")` is reported;
otherwise the aging point is committed and the remainder diffed.  Returns
`((committed, provisional), (backspace_count, new_chars))`. -/
def pollUpdate (committed provisional new : List Char) :
    (List Char × List Char) × (Nat × List Char) :=
  if new = [] then ((committed, provisional), (0, []))
  else
    let aging_point := findAgingPointState provisional new
    let c1 := if aging_point > 0 then committed ++ provisional.take aging_point else committed
    let p1 := if aging_point > 0 then provisional.drop aging_point else provisional
    let common_len := commonPrefixLen p1 new
    let backspace_count := p1.length - common_len
    let new_chars := new.drop common_len
    ((c1, new), (backspace_count, new_chars))

/-- The function `TextTracker.update` reshaped for comparison with `pollUpdate`: the
resulting committed/provisional strings together with the reported
`(backspaces, appended)` pair, reading `None` as `(0, "")` (both encode
"nothing to do"). -/
def updatePair (t : TextTracker) (new : List Char) :
    (List Char × List Char) × (Nat × List Char) :=
  let (t', r) := t.update new
  ((t'.committed, t'.provisional),
    match r with
    | none => (0, [])
    | some d => (d.backspaces, d.new_text))

/-- Embedding of `handle_command` from `ipc.rs` (lines 85-99): split off the first
space-separated word, uppercase it, and dispatch.  `START` and `STOP` are
answered `OK` unconditionally (the handler has no access to any session
state).  Rust's `to_uppercase` agrees with `Char.toUpper` on the ASCII
commands involved. -/
def handle_command (cmd : List Char) : List Char :=
  let head := cmd.takeWhile (fun c => c ≠ ' ')
  let up := head.map Char.toUpper
  if up = "PING".toList then "PONG".toList
  else if up = "START".toList then "OK".toList
  else if up = "STOP".toList then "OK".toList
  else "ERROR unknown command: ".toList ++ head

/-- Embedding of `DaemonState::start_recording` from `state.rs` (lines 38-107), reduced
to its recording-flag protocol: `recording.swap(true)`; if the flag was
already set answer `ERROR already recording`, else answer `OK` (the worker
thread it spawns is outside the state model).  Returns the new flag and the
response. -/
def startRecording (recording : Bool) : Bool × List Char :=
  if recording then (true, "ERROR already recording".toList)
  else (true, "OK".toList)

/-- Embedding of `DaemonState::stop_recording` from `state.rs` (lines 109-121):
`recording.swap(false)`; if the flag was not set answer
`ERROR not recording`, else answer `OK`. -/
def stopRecording (recording : Bool) : Bool × List Char :=
  if !recording then (false, "ERROR not recording".toList)
  else (false, "OK".toList)

/-- Embedding of `SAMPLE_RATE` from `whisper.rs`. -/
def SAMPLE_RATE : Nat := 16000

/-- Embedding of `std::time::Duration` as stored by Rust: whole seconds plus a
sub-second nanosecond remainder; `as_secs()` returns `secs` alone. -/
structure Duration where
  secs : Nat
  subsecNanos : Nat
deriving DecidableEq

/-- Embedding of `RollingBuffer` from `whisper.rs`: sample values are inert `ℚ` stand-ins
for `f32` (the buffer never computes on them). -/
structure RollingBuffer where
  samples : List ℚ
  capacity : Nat
deriving DecidableEq

/-- Embedding of `RollingBuffer::new` from `whisper.rs` (lines 17-24):
`capacity = duration.as_secs() * SAMPLE_RATE`. -/
def RollingBuffer.new (duration : Duration) : RollingBuffer :=
  ⟨[], duration.secs * SAMPLE_RATE⟩

/-- Embedding of `RollingBuffer::push` from `whisper.rs` (lines 27-34): append, then
drain the oldest `len - capacity` samples if the capacity is exceeded. -/
def RollingBuffer.push (b : RollingBuffer) (new_samples : List ℚ) : RollingBuffer :=
  let s := b.samples ++ new_samples
  if s.length > b.capacity then ⟨s.drop (s.length - b.capacity), b.capacity⟩
  else ⟨s, b.capacity⟩

/-- Run a sequence of `push` calls. -/
def pushAll (b : RollingBuffer) (xs : List (List ℚ)) : RollingBuffer :=
  xs.foldl RollingBuffer.push b

/-- Embedding of `resample` from `audio.rs` (lines 130-154), with `f64` arithmetic
embedded in `ℚ` (exact for every input used in the theorems below; the
near-1 shortcut constant `0.001` is the mathematical value).  Indexing
`samples[idx]` is `getD idx 0`, in bounds whenever the code reaches it. -/
def resample (samples : List ℚ) (ratio : ℚ) : List ℚ :=
  if |ratio - 1| < 1 / 1000 then samples
  else
    let output_len := (Int.ceil ((samples.length : ℚ) * ratio)).toNat
    (List.range output_len).map (fun (i : Nat) =>
      let src_idx : ℚ := (i : ℚ) / ratio
      let idx0 := (Int.floor src_idx).toNat
      let idx1 := min (idx0 + 1) (samples.length - 1)
      let frac := src_idx - (idx0 : ℚ)
      if idx0 < samples.length then
        samples.getD idx0 0 * (1 - frac) + samples.getD idx1 0 * frac
      else 0)

/-! ## Helper lemmas -/

lemma findSub_leading {hay key : List Char} (h : key <+: hay) : findSub hay key = some 0 := by
  cases hay with
  | nil => simp [findSub, List.prefix_nil.mp h]
  | cons a t => simp [findSub, List.isPrefixOf_iff_prefix.mpr h]

lemma findSub_le {hay key : List Char} {i : Nat} (h : findSub hay key = some i) :
    i ≤ hay.length := by
  induction hay generalizing i with
  | nil =>
    unfold findSub at h
    split at h
    · simp_all
    · simp_all
  | cons a t ih =>
    unfold findSub at h
    split at h
    · simp only [Option.some.injEq] at h
      simp only [List.length_cons]
      omega
    · obtain ⟨j, hj, rfl⟩ := Option.map_eq_some'.mp h
      have := ih hj
      simp only [List.length_cons]
      omega

lemma findSub_some {hay key : List Char} {i : Nat} (h : findSub hay key = some i) :
    key <+: hay.drop i := by
  induction hay generalizing i with
  | nil =>
    unfold findSub at h
    split at h
    · simp_all
    · simp_all
  | cons a t ih =>
    unfold findSub at h
    split at h
    · rename_i hp
      obtain rfl : i = 0 := by simp_all
      simpa using List.isPrefixOf_iff_prefix.mp hp
    · obtain ⟨j, hj, rfl⟩ := Option.map_eq_some'.mp h
      simpa [List.drop_succ_cons] using ih hj

lemma findSub_some_le {hay key : List Char} {i : Nat} (h : findSub hay key = some i) :
    i + key.length ≤ hay.length := by
  have h1 := findSub_le h
  have h2 := (findSub_some h).length_le
  rw [List.length_drop] at h2
  omega

lemma findSub_eq_none_of_longer {hay key : List Char} (h : hay.length < key.length) :
    findSub hay key = none := by
  cases hf : findSub hay key with
  | none => rfl
  | some i => exact absurd (findSub_some_le hf) (by omega)

lemma commonPrefixLen_le_left : ∀ a b : List Char, commonPrefixLen a b ≤ a.length := by
  intro a
  induction a with
  | nil => intro b; cases b <;> simp [commonPrefixLen]
  | cons x xs ih =>
    intro b
    cases b with
    | nil => simp [commonPrefixLen]
    | cons y ys =>
      unfold commonPrefixLen
      split
      · have := ih ys
        simp only [List.length_cons]
        omega
      · simp

lemma commonPrefixLen_le_right : ∀ a b : List Char, commonPrefixLen a b ≤ b.length := by
  intro a
  induction a with
  | nil => intro b; cases b <;> simp [commonPrefixLen]
  | cons x xs ih =>
    intro b
    cases b with
    | nil => simp [commonPrefixLen]
    | cons y ys =>
      unfold commonPrefixLen
      split
      · have := ih ys
        simp only [List.length_cons]
        omega
      · simp

lemma commonPrefixLen_take : ∀ a b : List Char,
    a.take (commonPrefixLen a b) = b.take (commonPrefixLen a b) := by
  intro a
  induction a with
  | nil => intro b; cases b <;> simp [commonPrefixLen]
  | cons x xs ih =>
    intro b
    cases b with
    | nil => simp [commonPrefixLen]
    | cons y ys =>
      unfold commonPrefixLen
      split
      · rename_i hxy
        simp [List.take_succ_cons, hxy, ih ys]
      · simp

lemma commonPrefixLen_self : ∀ a : List Char, commonPrefixLen a a = a.length := by
  intro a
  induction a with
  | nil => simp [commonPrefixLen]
  | cons x xs ih => simp [commonPrefixLen, ih]

lemma prefix_of_commonPrefixLen_eq_right : ∀ a b : List Char,
    commonPrefixLen a b = b.length → b <+: a := by
  intro a
  induction a with
  | nil =>
    intro b h
    cases b with
    | nil => exact List.prefix_refl _
    | cons y ys => simp [commonPrefixLen] at h
  | cons x xs ih =>
    intro b h
    cases b with
    | nil => exact List.nil_prefix
    | cons y ys =>
      unfold commonPrefixLen at h
      split at h
      · rename_i hxy
        subst hxy
        simp only [List.length_cons, Nat.add_right_cancel_iff] at h
        exact List.cons_prefix_cons.mpr ⟨rfl, ih ys h⟩
      · simp at h

lemma tryKeys_le (prov new : List Char) : ∀ k, tryKeys prov new k ≤ prov.length := by
  intro k
  induction k with
  | zero => simp [tryKeys]
  | succ n ih =>
    unfold tryKeys
    split
    · simp
    · cases hf : findSub prov (new.take (n + 1)) with
      | none => simpa [hf] using ih
      | some p =>
        have := findSub_some_le hf
        simp only [hf]
        split
        · omega
        · exact ih

lemma tryKeys_eq_zero_of_none {prov new : List Char} :
    ∀ k, (∀ j, 15 ≤ j → j ≤ k → findSub prov (new.take j) = none) →
      tryKeys prov new k = 0 := by
  intro k
  induction k with
  | zero => intro _; simp [tryKeys]
  | succ n ih =>
    intro h
    unfold tryKeys
    split
    · rfl
    · rename_i hn
      have h15 : 15 ≤ n + 1 := by omega
      simp only [h (n + 1) h15 (Nat.le_refl _)]
      exact ih (fun j hj hj' => h j hj (by omega))

lemma findSub_take_of_prefixRel {prov new : List Char}
    (h : prov <+: new ∨ new <+: prov) (m : Nat) :
    findSub prov (new.take m) = none ∨ findSub prov (new.take m) = some 0 := by
  cases hf : findSub prov (new.take m) with
  | none => exact Or.inl rfl
  | some i =>
    right
    have hkey : new.take m <+: prov := by
      rcases h with h | h
      · have h1 : new.take m <+: new := List.take_prefix m new
        have h2 : (new.take m).length ≤ prov.length := by
          have := findSub_some_le hf
          omega
        exact List.prefix_of_prefix_length_le h1 h h2
      · exact (List.take_prefix m new).trans h
    exact hf ▸ findSub_leading hkey

lemma tryKeys_eq_zero_of_prefixRel {prov new : List Char}
    (h : prov <+: new ∨ new <+: prov) : ∀ k, tryKeys prov new k = 0 := by
  intro k
  induction k with
  | zero => simp [tryKeys]
  | succ n ih =>
    unfold tryKeys
    split
    · rfl
    · rcases findSub_take_of_prefixRel h (n + 1) with hf | hf <;> simp [hf, ih]

lemma tryKeys_nil_left {new : List Char} (hnew : new ≠ []) : ∀ k, tryKeys [] new k = 0 := by
  intro k
  induction k with
  | zero => simp [tryKeys]
  | succ n ih =>
    unfold tryKeys
    split
    · rfl
    · have hkey : new.take (n + 1) ≠ [] := by
        simp [List.take_eq_nil_iff, hnew]
      simp [findSub, hkey, ih]

lemma findAgingPoint_le (prov new : List Char) : findAgingPoint prov new ≤ prov.length := by
  unfold findAgingPoint
  split
  · omega
  · split
    · omega
    · split
      · omega
      · exact tryKeys_le prov new _

/-- The function `TextTracker.update` with the two state-threading `if`s flattened away:
outside the initial both-empty shortcut, the committed text always gains
`provisional.take aging_point`, the provisional text is replaced by the new
transcript, and the result is built from the diff past the aging point. -/
lemma update_normalize (t : TextTracker) (s : List Char)
    (h : ¬(s = [] ∧ t.provisional = [])) :
    t.update s =
      (⟨t.committed ++ t.provisional.take (findAgingPoint t.provisional s), s⟩,
        if (t.provisional.drop (findAgingPoint t.provisional s)).length
              - commonPrefixLen (t.provisional.drop (findAgingPoint t.provisional s)) s > 0
            ∨ s.drop (commonPrefixLen (t.provisional.drop (findAgingPoint t.provisional s)) s) ≠ []
        then
          some ⟨(t.provisional.drop (findAgingPoint t.provisional s)).length
                  - commonPrefixLen (t.provisional.drop (findAgingPoint t.provisional s)) s,
                s.drop (commonPrefixLen (t.provisional.drop (findAgingPoint t.provisional s)) s)⟩
        else none) := by
  unfold TextTracker.update
  rw [if_neg h]
  by_cases ha : findAgingPoint t.provisional s > 0
  · simp only [if_pos ha]
    split_ifs <;> rfl
  · have ha0 : findAgingPoint t.provisional s = 0 := by omega
    simp only [ha0, gt_iff_lt, lt_irrefl, if_false, List.take_zero, List.append_nil,
      List.drop_zero]
    split_ifs <;> rfl

lemma update_fst_provisional (t : TextTracker) (s : List Char) :
    ((t.update s).1).provisional = s := by
  by_cases h : s = [] ∧ t.provisional = []
  · rw [TextTracker.update, if_pos h]
    exact h.2.trans h.1.symm
  · rw [update_normalize t s h]

lemma findAgingPoint_self {s : List Char} (hs : s ≠ []) : findAgingPoint s s = 0 := by
  unfold findAgingPoint
  rw [if_neg (by simp [hs])]
  rw [if_pos]
  simp [List.isPrefixOf_iff_prefix]

lemma update_committed_prefix_step (t : TextTracker) (s : List Char) :
    t.committed <+: ((t.update s).1).committed := by
  by_cases h : s = [] ∧ t.provisional = []
  · rw [TextTracker.update, if_pos h]
  · rw [update_normalize t s h]
    exact List.prefix_append ..

/-! ## Claim theorems -/

/-- C5: `find_aging_point(new)` returns 0 when `new` has fewer than 15
scalars, and otherwise equals the descending key search: keys `new[..k]`
for `k` from `min(40, |new|)` down to 15, the first key whose first
occurrence in `provisional` sits at scalar offset `p > 0` yielding aging
point `p`, an occurrence at offset 0 never counting.  The guard clauses of
the code (empty strings, mutual prefixes) never change this answer. -/
theorem findAgingPoint_eq_agingSpec (prov new : List Char) :
    findAgingPoint prov new = agingSpec prov new := by
  unfold findAgingPoint agingSpec
  by_cases h1 : prov = [] ∨ new = []
  · rw [if_pos h1]
    rcases h1 with h1 | h1
    · subst h1
      split
      · rfl
      · rename_i hlen
        exact (tryKeys_nil_left (by intro he; subst he; simp at hlen) _).symm
    · subst h1
      simp
  · rw [if_neg h1]
    by_cases h2 : (prov.isPrefixOf new || new.isPrefixOf prov) = true
    · rw [if_pos h2]
      split
      · rfl
      · rcases Bool.or_eq_true_iff.mp h2 with hb | hb
        · exact (tryKeys_eq_zero_of_prefixRel
            (Or.inl (List.isPrefixOf_iff_prefix.mp hb)) _).symm
        · exact (tryKeys_eq_zero_of_prefixRel
            (Or.inr (List.isPrefixOf_iff_prefix.mp hb)) _).symm
    · rw [if_neg h2]

/-- C6: across any sequence of `update` calls the `committed` string is
monotonically non-decreasing: each call extends the previous `committed`
(the old value is a prefix of the new one), and over any list of
transcripts `committed` is never shortened. -/
theorem committed_monotone :
    (∀ (t : TextTracker) (s : List Char),
        t.committed <+: ((t.update s).1).committed) ∧
    (∀ (t : TextTracker) (ss : List (List Char)),
        t.committed <+: (applyUpdates t ss).committed) := by
  refine ⟨update_committed_prefix_step, fun t ss => ?_⟩
  induction ss generalizing t with
  | nil => exact List.prefix_refl _
  | cons s ss ih =>
    exact (update_committed_prefix_step t s).trans (ih ((t.update s).1))

/-- C9: two consecutive `update(s)` calls with the same transcript `s`
return `None` on the second call, for every starting tracker state. -/
theorem update_second_none (t : TextTracker) (s : List Char) :
    (((t.update s).1).update s).2 = none := by
  have hp : ((t.update s).1).provisional = s := update_fst_provisional t s
  by_cases hs : s = []
  · rw [TextTracker.update, if_pos ⟨hs, hp.trans hs⟩]
  · rw [update_normalize ((t.update s).1) s (by rintro ⟨he, _⟩; exact hs he)]
    rw [hp, findAgingPoint_self hs]
    simp [commonPrefixLen_self, List.drop_length]

/-- Rewriting a take of an append whose index reaches `n` scalars past the
left part. -/
lemma take_append_len_add (l₁ l₂ : List Char) (n : Nat) :
    (l₁ ++ l₂).take (l₁.length + n) = l₁ ++ l₂.take n := by
  rw [List.take_add]
  congr 1
  · exact List.take_left ..
  · rw [List.drop_left]

/-- C4: whenever `update` returns a `DiffResult`, deleting `backspaces`
trailing scalars from the previous `full_text` and appending `new_text`
yields exactly the new `full_text`. -/
theorem update_diff_applies (t : TextTracker) (s : List Char)
    (t' : TextTracker) (r : DiffResult) (h : t.update s = (t', some r)) :
    applyDiff t.full_text r.backspaces r.new_text = t'.full_text := by
  by_cases hne : s = [] ∧ t.provisional = []
  · rw [TextTracker.update, if_pos hne] at h
    simp at h
  · rw [update_normalize t s hne] at h
    set a := findAgingPoint t.provisional s with ha
    set common := commonPrefixLen (t.provisional.drop a) s with hcommon
    have hale : a ≤ t.provisional.length := findAgingPoint_le ..
    have hc1 : common ≤ (t.provisional.drop a).length := commonPrefixLen_le_left ..
    have hc2 : common ≤ s.length := commonPrefixLen_le_right ..
    rw [List.length_drop] at hc1
    split at h
    · rw [Prod.mk.injEq, Option.some.injEq] at h
      obtain ⟨ht', hr⟩ := h
      subst ht'
      subst hr
      unfold applyDiff TextTracker.full_text
      simp only [List.length_append, List.length_drop]
      have harith : t.committed.length + t.provisional.length
          - (t.provisional.length - a - common)
          = t.committed.length + (a + common) := by omega
      rw [harith, take_append_len_add, List.take_add]
      rw [commonPrefixLen_take (t.provisional.drop a) s]
      simp only [List.append_assoc, List.take_append_drop]
    · rw [Prod.mk.injEq] at h
      simp at h

/-- C4 witness: the very first update on an empty tracker. -/
theorem update_diff_applies_witness :
    applyDiff (TextTracker.full_text ⟨[], []⟩) 0 ("Hello".toList)
      = TextTracker.full_text ⟨[], "Hello".toList⟩ :=
  update_diff_applies ⟨[], []⟩ ("Hello".toList) ⟨[], "Hello".toList⟩
    ⟨0, "Hello".toList⟩ (by decide)

/-- C1 counterexample: with `provisional = "The cat"` and the 32-scalar
transcript `new = "The dog went to the market today"`, no prefix key of
`new` of length 15..min(40, 32) occurs in `provisional` (every key is
longer than `provisional`), yet `update` backspaces only 3 scalars — the
part of `provisional` past the common prefix `"The "` — and appends only
the rest of `new`, not `(|provisional|, new)` as the claim states. -/
theorem update_no_key_not_full_backspace :
    15 ≤ ("The dog went to the market today".toList).length ∧
    (∀ k, 15 ≤ k → k ≤ min 40 ("The dog went to the market today".toList).length →
      findSub ("The cat".toList) (("The dog went to the market today".toList).take k) = none) ∧
    (TextTracker.update ⟨[], "The cat".toList⟩ ("The dog went to the market today".toList)).2
      = some ⟨3, "dog went to the market today".toList⟩ ∧
    (TextTracker.update ⟨[], "The cat".toList⟩ ("The dog went to the market today".toList)).2
      ≠ some ⟨("The cat".toList).length, "The dog went to the market today".toList⟩ := by
  refine ⟨by decide, ?_, by decide, by decide⟩
  intro k hk _
  apply findSub_eq_none_of_longer
  have h32 : ("The dog went to the market today".toList).length = 32 := by decide
  have h7 : ("The cat".toList).length = 7 := by decide
  rw [h7, List.length_take, h32]
  omega

/-- C1 (amended): for every tracker state and transcript `new` of at least
15 scalars, if no prefix key of `new` of length 15..min(40, |new|) occurs
anywhere in `provisional`, then `update(new)` treats the change as a
revision: the aging point is 0, nothing moves into `committed`, and the
result backspaces all of `provisional` beyond its longest common scalar
prefix with `new` and appends the remainder of `new` (so the full text
becomes `committed ++ new`). -/
theorem update_no_key_is_revision (t : TextTracker) (s : List Char)
    (h15 : 15 ≤ s.length)
    (hkeys : ∀ k, 15 ≤ k → k ≤ min 40 s.length →
      findSub t.provisional (s.take k) = none) :
    findAgingPoint t.provisional s = 0 ∧
    t.update s = (⟨t.committed, s⟩,
      some ⟨t.provisional.length - commonPrefixLen t.provisional s,
            s.drop (commonPrefixLen t.provisional s)⟩) := by
  have hs : s ≠ [] := by intro he; subst he; simp at h15
  have haging : findAgingPoint t.provisional s = 0 := by
    unfold findAgingPoint
    by_cases h1 : t.provisional = [] ∨ s = []
    · rw [if_pos h1]
    · rw [if_neg h1]
      by_cases h2 : (t.provisional.isPrefixOf s || s.isPrefixOf t.provisional) = true
      · rw [if_pos h2]
      · rw [if_neg h2, if_neg (by omega)]
        apply tryKeys_eq_zero_of_none
        intro j hj hjk
        exact hkeys j hj (by omega)
  have hcpl : commonPrefixLen t.provisional s < s.length := by
    rcases Nat.lt_or_ge (commonPrefixLen t.provisional s) s.length with hlt | hge
    · exact hlt
    · exfalso
      have heq : commonPrefixLen t.provisional s = s.length :=
        Nat.le_antisymm (commonPrefixLen_le_right ..) hge
      have hsp : s <+: t.provisional := prefix_of_commonPrefixLen_eq_right _ _ heq
      have hkp : s.take 15 <+: t.provisional := (List.take_prefix ..).trans hsp
      have := hkeys 15 (Nat.le_refl _) (by omega)
      rw [findSub_leading hkp] at this
      simp at this
  refine ⟨haging, ?_⟩
  rw [update_normalize t s (by rintro ⟨he, _⟩; exact hs he), haging]
  simp only [List.take_zero, List.append_nil, List.drop_zero]
  rw [if_pos (Or.inr (by rw [Ne, List.drop_eq_nil_iff]; omega))]

/-- C1 witness: the amended statement evaluated at the concrete tracker of
the counterexample. -/
theorem update_no_key_is_revision_witness :
    findAgingPoint ("The cat".toList) ("The dog went to the market today".toList) = 0 ∧
    TextTracker.update ⟨[], "The cat".toList⟩ ("The dog went to the market today".toList)
      = (⟨[], "The dog went to the market today".toList⟩,
         some ⟨("The cat".toList).length
                - commonPrefixLen ("The cat".toList) ("The dog went to the market today".toList),
               ("The dog went to the market today".toList).drop
                (commonPrefixLen ("The cat".toList) ("The dog went to the market today".toList))⟩) :=
  update_no_key_is_revision ⟨[], "The cat".toList⟩ ("The dog went to the market today".toList)
    (by decide)
    (by
      intro k hk _
      apply findSub_eq_none_of_longer
      have h32 : ("The dog went to the market today".toList).length = 32 := by decide
      have h7 : ("The cat".toList).length = 7 := by decide
      rw [h7, List.length_take, h32]
      omega)

/-- C3 counterexample: starting from `committed = ""`,
`provisional = "Hello world"` with new transcript `"Goodbye friend"`
(14 scalars), `TextTracker::update` treats the change as a revision
(11 backspaces, `committed` untouched) while `DaemonState::poll`'s inline
logic finds no key of length 5..14, commits all of `"Hello world"`, and
reports 0 backspaces. -/
theorem update_poll_disagree :
    pollUpdate [] ("Hello world".toList) ("Goodbye friend".toList)
      ≠ updatePair ⟨[], "Hello world".toList⟩ ("Goodbye friend".toList) := by decide

/-- C3 (amended): the two embeddings of the diff logic agree — same
`(backspaces, appended)` pair and same committed/provisional strings —
whenever the new transcript is nonempty and one of provisional/new is a
prefix of the other; in general they differ (key lengths 5..min(30,|new|)
instead of 15..min(40,|new|), a match at offset 0 ends the search, all of
`provisional` is committed when no key matches, and an empty transcript
leaves `poll`'s state untouched). -/
theorem update_poll_agree_on_prefixes (c p s : List Char) (hs : s ≠ [])
    (hpre : p <+: s ∨ s <+: p) :
    pollUpdate c p s = updatePair ⟨c, p⟩ s := by
  have hb : (p.isPrefixOf s || s.isPrefixOf p) = true := by
    rcases hpre with h | h
    · simp [List.isPrefixOf_iff_prefix.mpr h]
    · simp [List.isPrefixOf_iff_prefix.mpr h]
  have hagS : findAgingPointState p s = 0 := by
    unfold findAgingPointState
    by_cases h1 : p = [] ∨ s = []
    · rw [if_pos h1]
    · rw [if_neg h1, if_pos hb]
  have hagD : findAgingPoint p s = 0 := by
    unfold findAgingPoint
    by_cases h1 : p = [] ∨ s = []
    · rw [if_pos h1]
    · rw [if_neg h1, if_pos hb]
  unfold pollUpdate updatePair
  rw [if_neg hs, update_normalize ⟨c, p⟩ s (by rintro ⟨he, _⟩; exact hs he)]
  simp only [hagS, hagD, gt_iff_lt, lt_irrefl, if_false, List.take_zero,
    List.append_nil, List.drop_zero]
  split_ifs with hc
  · rfl
  · push_neg at hc
    have h0 : p.length - commonPrefixLen p s = 0 := by omega
    simp [h0, hc.2]

/-- C3 witness: a pure append (`"He"` → `"Hello"`), where both embeddings
report `(0, "llo")` and leave the same state. -/
theorem update_poll_agree_on_prefixes_witness :
    pollUpdate ("x".toList) ("He".toList) ("Hello".toList)
      = updatePair ⟨"x".toList, "He".toList⟩ ("Hello".toList) :=
  update_poll_agree_on_prefixes ("x".toList) ("He".toList) ("Hello".toList)
    (by decide) (Or.inl (by decide))

/-- C2: the command dispatcher `handle_command` answers `OK` to `START` and
`STOP` unconditionally — it consults no session state — whereas the
(unwired) `DaemonState` methods do answer `ERROR already recording` for
`START` while recording and `ERROR not recording` for `STOP` while idle,
and `OK` otherwise. -/
theorem handle_command_ignores_recording_state :
    handle_command ("START".toList) = "OK".toList ∧
    handle_command ("STOP".toList) = "OK".toList ∧
    (startRecording true).2 = "ERROR already recording".toList ∧
    (stopRecording false).2 = "ERROR not recording".toList ∧
    (startRecording false).2 = "OK".toList ∧
    (stopRecording true).2 = "OK".toList := by decide

/-- A buffer holding the length-`min(|L|, cap)` suffix of `L` still holds
the corresponding suffix of `L ++ x` after pushing `x`. -/
lemma push_drop (L x : List ℚ) (cap : Nat) :
    RollingBuffer.push ⟨L.drop (L.length - cap), cap⟩ x
      = ⟨(L ++ x).drop ((L ++ x).length - cap), cap⟩ := by
  have hdl : (L.drop (L.length - cap)).length = L.length - (L.length - cap) :=
    List.length_drop ..
  have hs : L.drop (L.length - cap) ++ x = (L ++ x).drop (L.length - cap) :=
    (List.drop_append_of_le_length (by omega)).symm
  unfold RollingBuffer.push
  simp only [List.length_append]
  split
  · rename_i hgt
    rw [RollingBuffer.mk.injEq]
    refine ⟨?_, rfl⟩
    rw [hs, List.drop_drop]
    congr 1
    simp only [List.length_append, hdl] at hgt ⊢
    omega
  · rename_i hle
    rw [RollingBuffer.mk.injEq]
    refine ⟨?_, rfl⟩
    rw [hs]
    congr 1
    simp only [List.length_append, hdl, Nat.not_lt] at hle ⊢
    omega

lemma pushAll_drop (cap : Nat) :
    ∀ (pushes : List (List ℚ)) (L : List ℚ),
      pushAll ⟨L.drop (L.length - cap), cap⟩ pushes
        = ⟨(L ++ pushes.flatten).drop ((L ++ pushes.flatten).length - cap), cap⟩ := by
  intro pushes
  induction pushes with
  | nil => intro L; simp [pushAll]
  | cons x xs ih =>
    intro L
    simp only [pushAll, List.foldl_cons]
    rw [push_drop]
    have h := ih (L ++ x)
    simp only [pushAll] at h
    rw [h, List.flatten_cons, List.append_assoc]

/-- C7: for any capacity and any sequence of `push` calls starting from an
empty rolling buffer, the buffer holds exactly the suffix of length
`min(total, capacity)` of the concatenation of everything pushed, so its
length never exceeds the capacity. -/
theorem rollingBuffer_suffix_invariant (cap : Nat) (pushes : List (List ℚ)) :
    (pushAll ⟨[], cap⟩ pushes).samples
        = pushes.flatten.drop (pushes.flatten.length - cap) ∧
    (pushAll ⟨[], cap⟩ pushes).samples.length = min pushes.flatten.length cap ∧
    (pushAll ⟨[], cap⟩ pushes).samples.length ≤ cap := by
  have h := pushAll_drop cap pushes []
  simp only [List.drop_nil, List.length_nil, Nat.zero_sub, List.nil_append] at h
  rw [h]
  refine ⟨rfl, ?_, ?_⟩ <;> simp only [List.length_drop] <;> omega

/-- C10: `RollingBuffer::new(duration)` sets the capacity to the whole
seconds of the duration times 16000, discarding the sub-second fraction;
for any sub-second duration the capacity is therefore 0 and every sequence
of pushes leaves the buffer empty. -/
theorem rollingBuffer_new_capacity :
    (∀ s n, (RollingBuffer.new ⟨s, n⟩).capacity = s * 16000) ∧
    (∀ n, (RollingBuffer.new ⟨0, n⟩).capacity = 0) ∧
    (∀ (n : Nat) (pushes : List (List ℚ)),
      (pushAll (RollingBuffer.new ⟨0, n⟩) pushes).samples.length = 0) := by
  refine ⟨fun s n => rfl, fun n => by simp [RollingBuffer.new], fun n pushes => ?_⟩
  have h : RollingBuffer.new ⟨0, n⟩ = (⟨[], 0⟩ : RollingBuffer) := by
    simp [RollingBuffer.new]
  rw [h]
  have h2 := (rollingBuffer_suffix_invariant 0 pushes).2.1
  rw [Nat.min_zero] at h2
  omega

/-- C8 counterexample: `ratio = 4095/4096` satisfies `|ratio − 1| < 0.001`,
so `resample` returns a copy; on an input of 8192 samples the copy has
length 8192, but `ceil(8192 × ratio) = 8190`. -/
theorem resample_length_counterexample :
    (0 : ℚ) < 4095 / 4096 ∧
    (resample (List.replicate 8192 (0 : ℚ)) (4095 / 4096)).length = 8192 ∧
    (Int.ceil (((List.replicate 8192 (0 : ℚ)).length : ℚ) * (4095 / 4096)) = 8190) ∧
    ((resample (List.replicate 8192 (0 : ℚ)) (4095 / 4096)).length : ℤ)
      ≠ Int.ceil (((List.replicate 8192 (0 : ℚ)).length : ℚ) * (4095 / 4096)) := by
  have hcopy : resample (List.replicate 8192 (0 : ℚ)) (4095 / 4096)
      = List.replicate 8192 (0 : ℚ) := by
    unfold resample
    rw [if_pos (by rw [abs_sub_lt_iff]; norm_num)]
  have hlen : (resample (List.replicate 8192 (0 : ℚ)) (4095 / 4096)).length = 8192 := by
    rw [hcopy, List.length_replicate]
  have hceil : Int.ceil (((List.replicate 8192 (0 : ℚ)).length : ℚ) * (4095 / 4096))
      = 8190 := by
    rw [List.length_replicate]
    norm_num
  exact ⟨by norm_num, hlen, hceil, by rw [hlen, hceil]; omega⟩

/-- C8 (amended): for every input and every ratio > 0 with
`|ratio − 1| ≥ 0.001`, the output length is exactly `ceil(|xs| × ratio)`;
for `|ratio − 1| < 0.001` the function instead returns an exact copy of
`xs`, whose length is `|xs|`. -/
theorem resample_length_spec (xs : List ℚ) (ratio : ℚ) (hpos : 0 < ratio) :
    (1 / 1000 ≤ |ratio - 1| →
      ((resample xs ratio).length : ℤ) = Int.ceil ((xs.length : ℚ) * ratio)) ∧
    (|ratio - 1| < 1 / 1000 → resample xs ratio = xs) := by
  constructor
  · intro hfar
    unfold resample
    rw [if_neg (not_lt.mpr hfar)]
    simp only [List.length_map, List.length_range]
    have h0 : (0 : ℚ) ≤ (xs.length : ℚ) * ratio := by positivity
    exact Int.toNat_of_nonneg (Int.ceil_nonneg h0)
  · intro hnear
    unfold resample
    rw [if_pos hnear]

/-- C8 witness: downsampling 48 samples at ratio 1/3 yields 16 samples, the
case of the repository's own `test_resample_downsample`. -/
theorem resample_length_spec_witness :
    ((resample (List.replicate 48 (0 : ℚ)) (1 / 3)).length : ℤ)
      = Int.ceil (((List.replicate 48 (0 : ℚ)).length : ℚ) * (1 / 3)) :=
  (resample_length_spec (List.replicate 48 (0 : ℚ)) (1 / 3) (by norm_num)).1
    (le_abs.mpr (Or.inr (by norm_num)))

end Yowl
